import Mathlib

/-!
Verification of the evaluation-domain default algorithms
(`src/poly/src/domain/mod.rs`) and of the flag-packing helper
(`src/serialize/src/flags.rs`) of the algebra library.

The Rust trait `EvaluationDomain` is modelled by the structure `EvalDomain`,
which records exactly the primitive accessors the default methods read:
`size`, `group_gen`, `group_gen_inv`, `coset_offset`, `coset_offset_pow_size`.
The structural invariants a real domain satisfies (the generator has
multiplicative order `size`, the offset is nonzero, the cached power really is
`offset ^ size`, the cached inverse really is the inverse) are carried as
hypotheses of the theorems, since the default methods themselves only read the
accessors.  Rust panics (assertion failures, division by zero) are modelled by
an `Option` result, `none` meaning the operation aborts.
-/

namespace Ark

section Domain

variable {F : Type*} [Field F] [DecidableEq F]

/-- The primitive accessor set of an `EvaluationDomain` implementation
(`size()`, `group_gen()`, `group_gen_inv()`, `coset_offset()`,
`coset_offset_pow_size()` in `src/poly/src/domain/mod.rs`). -/
structure EvalDomain (F : Type*) where
  size : ℕ
  group_gen : F
  group_gen_inv : F
  coset_offset : F
  coset_offset_pow_size : F

/-- `size_as_field_element`: `F::from(self.size() as u64)`. -/
def size_as_field_element (d : EvalDomain F) : F := (d.size : F)

/-- `element(i)`: `group_gen.pow(i)`, multiplied by the coset offset when the
offset is not one (`src/poly/src/domain/mod.rs`, lines 238-244). -/
def element (d : EvalDomain F) (i : ℕ) : F :=
  if d.coset_offset = 1 then d.group_gen ^ i else d.group_gen ^ i * d.coset_offset

/-- `evaluate_vanishing_polynomial(tau)`:
`tau.pow(size) - coset_offset_pow_size` (lines 231-235). -/
def evaluate_vanishing_polynomial (d : EvalDomain F) (tau : F) : F :=
  tau ^ d.size - d.coset_offset_pow_size

/-- The degenerate-path loop of `evaluate_all_lagrange_coefficients`
(lines 179-188): scan `omega_i = offset * g^i` for the first exact match with
`tau`, write `1` there, leave every other entry at `0` (the vector was
initialised with zeros and the loop breaks at the first match). -/
def lagrange_degenerate (tau g : F) : F → ℕ → List F
  | _, 0 => []
  | omega, n + 1 =>
    if omega = tau then 1 :: List.replicate n 0
    else 0 :: lagrange_degenerate tau g (omega * g) n

/-- The general-path loop of `evaluate_all_lagrange_coefficients`
(lines 207-214): each entry is `l_i * r_i` where `r_i = tau + negative_cur_elem`,
and the running state is updated by `l_i *= group_gen_inv`,
`negative_cur_elem *= group_gen`. -/
def lagrange_general_loop (tau ginv g : F) : F → F → ℕ → List F
  | _, _, 0 => []
  | l, neg, n + 1 =>
    (l * (tau + neg)) :: lagrange_general_loop tau ginv g (l * ginv) (neg * g) n

/-- Modelled from the spec: `ark_ff::fields::batch_inversion` belongs to the
field-arithmetic collaborator, which is not under `src/`.  Per the spec it is
"computing many field inversions using one true inversion plus several
multiplications"; an entry without an inverse (zero) is left unchanged.  In
Mathlib fields `0⁻¹ = 0`, so an entrywise inverse map captures this. -/
def batch_inversion (l : List F) : List F := l.map (·⁻¹)

/-- `evaluate_all_lagrange_coefficients(tau)` (lines 156-221): if the vanishing
polynomial is zero at `tau`, run the degenerate scan; otherwise build the
inverted coefficients `l_i * r_i` with `l_0 = z_h⁻¹ * (m * h^(m-1))`,
starting negative element `-offset`, and batch-invert the result. -/
def evaluate_all_lagrange_coefficients (d : EvalDomain F) (tau : F) : List F :=
  let size := d.size
  let z_h_at_tau := evaluate_vanishing_polynomial d tau
  let offset := d.coset_offset
  let group_gen := d.group_gen
  if z_h_at_tau = 0 then
    lagrange_degenerate tau group_gen offset size
  else
    let group_gen_inv := d.group_gen_inv
    let v_0_inv := size_as_field_element d * offset ^ (size - 1)
    batch_inversion
      (lagrange_general_loop tau group_gen_inv group_gen
        (z_h_at_tau⁻¹ * v_0_inv) (-offset) size)

/-- `reindex_by_subdomain(other, index)` (lines 252-274), with both panics
modelled as `none`: the `assert!(self.size() >= other.size())`, the division
`self.size() / other.size()` when `other.size() == 0`, and the division
`i / x` when `x == period - 1 == 0`. -/
def reindex_by_subdomain (selfSize otherSize index : ℕ) : Option ℕ :=
  if otherSize ≤ selfSize then
    if otherSize = 0 then none
    else
      let period := selfSize / otherSize
      if index < otherSize then some (index * period)
      else
        let i := index - otherSize
        let x := period - 1
        if x = 0 then none
        else some (i + i / x + 1)
  else none

/-- `mul_polynomials_in_evaluation_domain(self_evals, other_evals)`
(lines 283-292): assert equal lengths (panic modelled as `none`), then
multiply entrywise. -/
def mul_polynomials_in_evaluation_domain (self_evals other_evals : List F) :
    Option (List F) :=
  if self_evals.length = other_evals.length then
    some (List.zipWith (· * ·) self_evals other_evals)
  else none

end Domain

section Distribute

variable {F : Type*} [Field F] {T : Type*} [SMul F T]

/-- The body of the sequential `distribute_powers_and_mul_by_const`
(lines 119-127): running multiplier `pow` starts at the given value and is
multiplied by `g` after each element.  The payload type `T` models
`DomainCoeff<F>`; `pow • a` models `*coeff *= pow` (`MulAssign<F>`). -/
def distribute_powers_loop (g : F) : F → List T → List T
  | _, [] => []
  | pow, a :: rest => (pow • a) :: distribute_powers_loop g (pow * g) rest

/-- `distribute_powers_and_mul_by_const(coeffs, g, c)` (sequential version,
lines 119-127): run the loop with initial multiplier `c`. -/
def distribute_powers_and_mul_by_const (coeffs : List T) (g c : F) : List T :=
  distribute_powers_loop g c coeffs

/-- `distribute_powers(coeffs, g)` (lines 114-116): delegate with `c = 1`. -/
def distribute_powers (coeffs : List T) (g : F) : List T :=
  distribute_powers_and_mul_by_const coeffs g 1

/-- The parallel `distribute_powers_and_mul_by_const` (lines 130-147),
abstracted over the chunk partition: the buffer is split into contiguous
chunks, and each chunk's starting multiplier is recomputed analytically as
`c * g.pow(chunk_start_index)` where the start index is the number of
elements in the preceding chunks, exactly as
`c * g.pow([(i * num_elem_per_thread) as u64])` does for equal chunks. -/
def distribute_powers_chunked (g c : F) : ℕ → List (List T) → List (List T)
  | _, [] => []
  | start, chunk :: rest =>
    distribute_powers_loop g (c * g ^ start) chunk ::
      distribute_powers_chunked g c (start + chunk.length) rest

end Distribute

section Flags

/-- The `Flags` trait of `src/serialize/src/flags.rs`: the data of an
implementation are the two required methods.  Bytes are modelled as natural
numbers; `u8_bitmask` returns a `u8`, so it is reduced modulo `2^8` where the
complement is taken. -/
structure FlagsType (Flag : Type*) where
  u8_bitmask : Flag → ℕ
  from_u8 : ℕ → Option Flag

/-- The provided method `from_u8_remove_flags` (lines 33-39): parse with
`from_u8`; on success clear the matched bits of the byte
(`*value &= !f.u8_bitmask()`, the `u8` complement being `255 - mask`),
on failure leave the byte untouched.  The returned pair is
(parse result, final byte). -/
def from_u8_remove_flags {Flag : Type*} (FT : FlagsType Flag) (value : ℕ) :
    Option Flag × ℕ :=
  match FT.from_u8 value with
  | none => (none, value)
  | some f => (some f, Nat.land value (255 - FT.u8_bitmask f % 256))

/-- The `EmptyFlags` implementation from the source: `BIT_SIZE = 0`,
`u8_bitmask` is `0`, `from_u8` always succeeds. -/
def EmptyFlagsImpl : FlagsType Unit where
  u8_bitmask _ := 0
  from_u8 _ := some ()

/-- An implementation whose `from_u8` always fails, for exercising the
failure path of `from_u8_remove_flags`. -/
def RejectAllFlagsImpl : FlagsType Unit where
  u8_bitmask _ := 128
  from_u8 _ := none

end Flags

/-! ### Helper lemmas about the power-redistribution loop -/

section DistributeLemmas

variable {F : Type*} [Field F] {T : Type*} [SMul F T]

lemma distribute_powers_loop_length (g : F) (p : F) (l : List T) :
    (distribute_powers_loop g p l).length = l.length := by
  induction l generalizing p with
  | nil => rfl
  | cons a rest ih => simp [distribute_powers_loop, ih]

lemma distribute_powers_loop_getElem (g : F) (p : F) (l : List T) (i : ℕ) :
    (distribute_powers_loop g p l)[i]? = l[i]?.map (fun a => (p * g ^ i) • a) := by
  induction l generalizing p i with
  | nil => simp [distribute_powers_loop]
  | cons a rest ih =>
    cases i with
    | zero => simp [distribute_powers_loop]
    | succ j =>
      simp only [distribute_powers_loop, List.getElem?_cons_succ, ih]
      have hp : p * g ^ (j + 1) = p * g * g ^ j := by
        rw [pow_succ']; ring
      rw [hp]

lemma distribute_powers_loop_append (g : F) (p : F) (xs ys : List T) :
    distribute_powers_loop g p (xs ++ ys) =
      distribute_powers_loop g p xs ++
        distribute_powers_loop g (p * g ^ xs.length) ys := by
  induction xs generalizing p with
  | nil => simp [distribute_powers_loop]
  | cons a rest ih =>
    have hp : p * g * g ^ rest.length = p * g ^ (rest.length + 1) := by
      rw [pow_succ]; ring
    simp only [List.cons_append, distribute_powers_loop, List.length_cons,
      List.append_eq]
    rw [ih, hp]

lemma distribute_powers_chunked_join (g c : F) (start : ℕ) (chunks : List (List T)) :
    (distribute_powers_chunked g c start chunks).flatten =
      distribute_powers_loop g (c * g ^ start) chunks.flatten := by
  induction chunks generalizing start with
  | nil => simp [distribute_powers_chunked, distribute_powers_loop]
  | cons ch rest ih =>
    simp only [distribute_powers_chunked, List.flatten_cons,
      distribute_powers_loop_append, ih]
    have hp : c * g ^ start * g ^ ch.length = c * g ^ (start + ch.length) := by
      rw [pow_add]; ring
    rw [hp]

end DistributeLemmas

/-! ### Claim C4: parallel/sequential equivalence of power redistribution -/

section C4

variable {F : Type*} [Field F] {T : Type*} [SMul F T]

/-- C4: for every buffer, every field element `g`, every constant `c`, and
every partitioning of the buffer into contiguous chunks, the chunked
implementation of `distribute_powers_and_mul_by_const` (which recomputes each
chunk's starting multiplier analytically as `c * g ^ chunk_start_index`)
produces a buffer identical to the one produced by the sequential
implementation. -/
theorem distribute_powers_chunked_eq_sequential (g c : F) (chunks : List (List T)) :
    (distribute_powers_chunked g c 0 chunks).flatten =
      distribute_powers_and_mul_by_const chunks.flatten g c := by
  rw [distribute_powers_chunked_join, distribute_powers_and_mul_by_const,
    pow_zero, mul_one]

end C4

/-! ### Claim C7: postcondition of power redistribution -/

section C7

variable {F : Type*} [Field F] {T : Type*} [SMul F T]

/-- C7: after `distribute_powers_and_mul_by_const(buffer, g, c)` the `i`-th
element of the buffer is the old `i`-th element multiplied by `c * g ^ i`,
the length is unchanged, and `distribute_powers(buffer, g)` is exactly the
`c = 1` instance, multiplying the `i`-th element by `g ^ i`. -/
theorem distribute_powers_and_mul_by_const_postcondition
    (g c : F) (buffer : List T) (i : ℕ) :
    (distribute_powers_and_mul_by_const buffer g c).length = buffer.length ∧
    (distribute_powers_and_mul_by_const buffer g c)[i]?
      = buffer[i]?.map (fun a => (c * g ^ i) • a) ∧
    distribute_powers buffer g = distribute_powers_and_mul_by_const buffer g 1 ∧
    (distribute_powers buffer g)[i]? = buffer[i]?.map (fun a => (g ^ i) • a) := by
  refine ⟨distribute_powers_loop_length g c buffer,
    distribute_powers_loop_getElem g c buffer i, rfl, ?_⟩
  rw [distribute_powers, distribute_powers_and_mul_by_const,
    distribute_powers_loop_getElem]
  simp

end C7

/-! ### Helper lemmas about domain elements and the vanishing polynomial -/

section DomainLemmas

variable {F : Type*} [Field F] [DecidableEq F]

lemma element_eq (d : EvalDomain F) (i : ℕ) :
    element d i = d.coset_offset * d.group_gen ^ i := by
  rw [element]
  split
  · rename_i h
    rw [h, one_mul]
  · rw [mul_comm]

lemma vanishing_at_element (d : EvalDomain F)
    (hg : d.group_gen ^ d.size = 1)
    (hpow : d.coset_offset_pow_size = d.coset_offset ^ d.size) (i : ℕ) :
    evaluate_vanishing_polynomial d (element d i) = 0 := by
  rw [evaluate_vanishing_polynomial, element_eq, hpow, mul_pow,
    ← pow_mul, mul_comm i d.size, pow_mul, hg, one_pow, mul_one, sub_self]

instance : Fact (Nat.Prime 5) := ⟨by norm_num⟩

instance : Fact (Nat.Prime 7) := ⟨by norm_num⟩

/-- A size-4 subgroup domain in `ZMod 5`: generator `2` has order 4,
`2⁻¹ = 3`, trivial coset offset. -/
def d5 : EvalDomain (ZMod 5) := ⟨4, 2, 3, 1, 1⟩

/-- A size-2 subgroup domain in `ZMod 7`: generator `6` has order 2 and is
its own inverse, trivial coset offset. -/
def d7 : EvalDomain (ZMod 7) := ⟨2, 6, 6, 1, 1⟩

end DomainLemmas

/-! ### Claim C6: vanishing-polynomial evaluation -/

section C6

variable {F : Type*} [Field F] [DecidableEq F]

/-- C6: `evaluate_vanishing_polynomial(tau)` equals
`tau ^ size - coset_offset_pow_size()`, and under the domain invariant
(`g ^ size = 1`, `coset_offset_pow_size() = offset ^ size`) it is zero at
`element(i)` for every `i` in `[0, size)`. -/
theorem evaluate_vanishing_polynomial_spec (d : EvalDomain F)
    (hg : d.group_gen ^ d.size = 1)
    (hpow : d.coset_offset_pow_size = d.coset_offset ^ d.size) :
    (∀ tau, evaluate_vanishing_polynomial d tau
        = tau ^ d.size - d.coset_offset_pow_size) ∧
    (∀ i, i < d.size → evaluate_vanishing_polynomial d (element d i) = 0) :=
  ⟨fun _ => rfl, fun i _ => vanishing_at_element d hg hpow i⟩

theorem evaluate_vanishing_polynomial_spec_witness :
    (∀ tau, evaluate_vanishing_polynomial d5 tau
        = tau ^ d5.size - d5.coset_offset_pow_size) ∧
    (∀ i, i < d5.size → evaluate_vanishing_polynomial d5 (element d5 i) = 0) :=
  evaluate_vanishing_polynomial_spec d5 (by decide) (by decide)

end C6

/-! ### Claim C5 and claim C10: subdomain re-indexing -/

section Reindex

/-- C5 counterexample input: `self.size() = other.size() = 2` (so `other`
divides `self` and the assertion passes) and `index = 2 ≥ other.size()`.
The claim says the call returns `i + ⌊i/x⌋ + 1`; the code instead divides by
`x = period - 1 = 0` and panics. -/
theorem reindex_by_subdomain_counterexample :
    reindex_by_subdomain 2 2 2 = none := by decide

/-- C5 (amended): `reindex_by_subdomain(other, index)` aborts when
`self.size() < other.size()`; otherwise, with
`period = self.size() / other.size()`, it returns `index * period` when
`index < other.size()`; when `index ≥ other.size()` it returns
`i + ⌊i/x⌋ + 1` with `i = index - other.size()` and `x = period - 1`
provided `period > 1`, and aborts with a division by zero when
`period = 1`. -/
theorem reindex_by_subdomain_formula (selfSize otherSize index : ℕ)
    (hpos : 0 < otherSize) :
    (selfSize < otherSize → reindex_by_subdomain selfSize otherSize index = none) ∧
    (otherSize ≤ selfSize →
      (index < otherSize →
        reindex_by_subdomain selfSize otherSize index
          = some (index * (selfSize / otherSize))) ∧
      (otherSize ≤ index → 1 < selfSize / otherSize →
        reindex_by_subdomain selfSize otherSize index
          = some ((index - otherSize)
              + (index - otherSize) / (selfSize / otherSize - 1) + 1)) ∧
      (otherSize ≤ index → selfSize / otherSize = 1 →
        reindex_by_subdomain selfSize otherSize index = none)) := by
  refine ⟨fun hlt => ?_, fun hle => ⟨fun hidx => ?_, fun hidx hper => ?_, fun hidx hper => ?_⟩⟩
  · rw [reindex_by_subdomain, if_neg (by omega)]
  · rw [reindex_by_subdomain, if_pos hle, if_neg (by omega), if_pos hidx]
  · rw [reindex_by_subdomain, if_pos hle, if_neg (by omega), if_neg (by omega),
      if_neg (by omega)]
  · rw [reindex_by_subdomain, if_pos hle, if_neg (by omega), if_neg (by omega),
      if_pos (by omega)]

theorem reindex_by_subdomain_formula_witness :
    reindex_by_subdomain 8 4 2 = some 4 ∧ reindex_by_subdomain 8 4 6 = some 5 := by
  have h1 := ((reindex_by_subdomain_formula 8 4 2 (by decide)).2 (by decide)).1 (by decide)
  have h2 := (((reindex_by_subdomain_formula 8 4 6 (by decide)).2 (by decide)).2.1
    (by decide) (by decide))
  exact ⟨by simpa using h1, by simpa using h2⟩

/-- C10: when `self.size() = other.size()` (so `period = 1`) and
`index ≥ other.size()`, `reindex_by_subdomain` divides by
`x = period - 1 = 0` and panics; the stated precondition does not exclude
this case. -/
theorem reindex_by_subdomain_period_one_div_zero (n index : ℕ)
    (hn : 0 < n) (hidx : n ≤ index) :
    n / n = 1 ∧ reindex_by_subdomain n n index = none := by
  have hper : n / n = 1 := Nat.div_self hn
  refine ⟨hper, ?_⟩
  rw [reindex_by_subdomain, if_pos (le_refl n), if_neg (by omega),
    if_neg (by omega), if_pos (by omega)]

theorem reindex_by_subdomain_period_one_div_zero_witness :
    2 / 2 = 1 ∧ reindex_by_subdomain 2 2 3 = none :=
  reindex_by_subdomain_period_one_div_zero 2 3 (by decide) (by decide)

end Reindex

/-! ### Claim C8: pointwise evaluation-domain multiplication -/

section C8

variable {F : Type*} [Field F]

lemma zipWith_mul_getD :
    ∀ (a b : List F) (i : ℕ), i < a.length → a.length = b.length →
      (List.zipWith (· * ·) a b).getD i 0 = a.getD i 0 * b.getD i 0 := by
  intro a
  induction a with
  | nil => intro b i hi _; simp at hi
  | cons x xs ih =>
    intro b i hi hlen
    cases b with
    | nil => simp at hlen
    | cons y ys =>
      cases i with
      | zero => simp [List.zipWith]
      | succ j =>
        simp only [List.zipWith, List.getD_cons_succ]
        exact ih ys j (by simpa using hi) (by simpa using hlen)

/-- C8: for inputs of equal length `n`, `mul_polynomials_in_evaluation_domain`
returns a vector of length `n` whose `i`-th entry is the product of the two
`i`-th input entries; for inputs of unequal length the operation aborts. -/
theorem mul_polynomials_in_evaluation_domain_spec (a b : List F) :
    (a.length = b.length →
      ∃ r, mul_polynomials_in_evaluation_domain a b = some r ∧
        r.length = a.length ∧
        ∀ i, i < a.length → r.getD i 0 = a.getD i 0 * b.getD i 0) ∧
    (a.length ≠ b.length → mul_polynomials_in_evaluation_domain a b = none) := by
  constructor
  · intro hlen
    refine ⟨List.zipWith (· * ·) a b, ?_, ?_, fun i hi => zipWith_mul_getD a b i hi hlen⟩
    · rw [mul_polynomials_in_evaluation_domain, if_pos hlen]
    · rw [List.length_zipWith, hlen, min_self]
  · intro hlen
    rw [mul_polynomials_in_evaluation_domain, if_neg hlen]

theorem mul_polynomials_in_evaluation_domain_spec_witness :
    (∃ r, mul_polynomials_in_evaluation_domain ([1, 2] : List (ZMod 5)) [3, 4]
        = some r ∧
      r.length = ([1, 2] : List (ZMod 5)).length ∧
      ∀ i, i < ([1, 2] : List (ZMod 5)).length →
        r.getD i 0 = ([1, 2] : List (ZMod 5)).getD i 0
          * ([3, 4] : List (ZMod 5)).getD i 0) ∧
    mul_polynomials_in_evaluation_domain ([1, 2] : List (ZMod 5)) [3] = none :=
  ⟨(mul_polynomials_in_evaluation_domain_spec [1, 2] [3, 4]).1 rfl,
   (mul_polynomials_in_evaluation_domain_spec [1, 2] [3]).2 (by decide)⟩

end C8

/-! ### Claim C9: flag-parse atomicity -/

section C9

/-- C9: if `from_u8(v)` is `None` then `from_u8_remove_flags` returns `None`
and leaves the byte unchanged; if `from_u8(v)` is `Some f` it returns
`Some f` and sets the byte to `v AND NOT u8_bitmask(f)`, clearing exactly the
matched flag bits. -/
theorem from_u8_remove_flags_spec {Flag : Type*} (FT : FlagsType Flag) (v : ℕ) :
    (FT.from_u8 v = none → from_u8_remove_flags FT v = (none, v)) ∧
    (∀ f, FT.from_u8 v = some f →
      from_u8_remove_flags FT v
        = (some f, Nat.land v (255 - FT.u8_bitmask f % 256))) := by
  constructor
  · intro h
    rw [from_u8_remove_flags, h]
  · intro f h
    rw [from_u8_remove_flags, h]

theorem from_u8_remove_flags_spec_witness :
    from_u8_remove_flags RejectAllFlagsImpl 37 = (none, 37) ∧
    from_u8_remove_flags EmptyFlagsImpl 37
      = (some (), Nat.land 37 (255 - EmptyFlagsImpl.u8_bitmask () % 256)) :=
  ⟨(from_u8_remove_flags_spec RejectAllFlagsImpl 37).1 rfl,
   (from_u8_remove_flags_spec EmptyFlagsImpl 37).2 () rfl⟩

end C9

/-! ### Claim C1: Lagrange coefficients at a domain element -/

section C1

variable {F : Type*} [Field F] [DecidableEq F]

lemma evaluate_all_lagrange_coefficients_def (d : EvalDomain F) (tau : F) :
    evaluate_all_lagrange_coefficients d tau =
      if evaluate_vanishing_polynomial d tau = 0 then
        lagrange_degenerate tau d.group_gen d.coset_offset d.size
      else
        batch_inversion
          (lagrange_general_loop tau d.group_gen_inv d.group_gen
            ((evaluate_vanishing_polynomial d tau)⁻¹
              * (size_as_field_element d * d.coset_offset ^ (d.size - 1)))
            (-d.coset_offset) d.size) := rfl

omit [DecidableEq F] in
lemma isPrimitiveRoot_of_bounds {n : ℕ} {g : F} (hn : 0 < n) (hg : g ^ n = 1)
    (hord : ∀ k, k < n → 0 < k → g ^ k ≠ 1) : IsPrimitiveRoot g n :=
  (IsPrimitiveRoot.iff hn).mpr ⟨hg, fun l hl1 hl2 => hord l hl2 hl1⟩

lemma lagrange_degenerate_first_match (tau g : F) :
    ∀ (k n : ℕ) (omega : F), k < n →
      omega * g ^ k = tau → (∀ m, m < k → omega * g ^ m ≠ tau) →
      lagrange_degenerate tau g omega n
        = List.replicate k 0 ++ 1 :: List.replicate (n - k - 1) 0 := by
  intro k
  induction k with
  | zero =>
    intro n omega hk hmatch _
    obtain ⟨m, rfl⟩ : ∃ m, n = m + 1 := ⟨n - 1, by omega⟩
    rw [pow_zero, mul_one] at hmatch
    simp [lagrange_degenerate, hmatch]
  | succ j ih =>
    intro n omega hk hmatch hbefore
    obtain ⟨m, rfl⟩ : ∃ m, n = m + 1 := ⟨n - 1, by omega⟩
    have h0 : omega ≠ tau := by
      have h00 := hbefore 0 (Nat.succ_pos j)
      simpa using h00
    have hmatch2 : omega * g * g ^ j = tau := by
      rw [mul_assoc, ← pow_succ']
      exact hmatch
    have hbefore2 : ∀ m2, m2 < j → omega * g * g ^ m2 ≠ tau := by
      intro m2 hm2 hc
      apply hbefore (m2 + 1) (by omega)
      rw [pow_succ', ← mul_assoc]
      exact hc
    rw [lagrange_degenerate, if_neg h0,
      ih m (omega * g) (by omega) hmatch2 hbefore2]
    have harith : m + 1 - (j + 1) - 1 = m - j - 1 := by omega
    rw [harith, List.replicate_succ, List.cons_append]

omit [DecidableEq F] in
lemma range_map_indicator :
    ∀ (i n : ℕ), i < n →
      (List.range n).map (fun j => if j = i then (1 : F) else 0)
        = List.replicate i 0 ++ 1 :: List.replicate (n - i - 1) 0 := by
  intro i
  induction i with
  | zero =>
    intro n hn
    obtain ⟨m, rfl⟩ : ∃ m, n = m + 1 := ⟨n - 1, by omega⟩
    rw [List.range_succ_eq_map]
    simp only [List.map_cons, if_pos rfl, List.map_map]
    have hcomp : (fun j => if j = 0 then (1 : F) else 0) ∘ Nat.succ
        = fun _ => (0 : F) := by
      funext j
      simp
    rw [hcomp]
    simp [List.map_const']
  | succ i2 ih =>
    intro n hn
    obtain ⟨m, rfl⟩ : ∃ m, n = m + 1 := ⟨n - 1, by omega⟩
    rw [List.range_succ_eq_map]
    simp only [List.map_cons, List.map_map]
    rw [if_neg (by omega)]
    have hcomp : (fun j => if j = i2 + 1 then (1 : F) else 0) ∘ Nat.succ
        = fun j => if j = i2 then (1 : F) else 0 := by
      funext j
      by_cases h : j = i2
      · subst h
        simp
      · rw [Function.comp_apply, if_neg (by omega), if_neg h]
    rw [hcomp, ih m (by omega)]
    have harith : m + 1 - (i2 + 1) - 1 = m - i2 - 1 := by omega
    rw [harith, List.replicate_succ, List.cons_append]

/-- C1: for a domain whose generator has multiplicative order `size` and whose
coset offset is nonzero, `evaluate_all_lagrange_coefficients(element(i))`
takes the degenerate branch (the vanishing polynomial is zero there) and
returns the vector of length `size` that is `1` at position `i` and `0`
everywhere else. -/
theorem evaluate_all_lagrange_coefficients_at_domain_element
    (d : EvalDomain F)
    (hg : d.group_gen ^ d.size = 1)
    (hord : ∀ k, k < d.size → 0 < k → d.group_gen ^ k ≠ 1)
    (hoff : d.coset_offset ≠ 0)
    (hpow : d.coset_offset_pow_size = d.coset_offset ^ d.size)
    (i : ℕ) (hi : i < d.size) :
    evaluate_vanishing_polynomial d (element d i) = 0 ∧
    evaluate_all_lagrange_coefficients d (element d i)
      = (List.range d.size).map (fun j => if j = i then (1 : F) else 0) := by
  have hz := vanishing_at_element d hg hpow i
  refine ⟨hz, ?_⟩
  have prim : IsPrimitiveRoot d.group_gen d.size :=
    isPrimitiveRoot_of_bounds (by omega) hg hord
  have hmatch : d.coset_offset * d.group_gen ^ i = element d i :=
    (element_eq d i).symm
  have hbefore : ∀ m, m < i → d.coset_offset * d.group_gen ^ m ≠ element d i := by
    intro m hm hc
    rw [element_eq] at hc
    have hpow_eq := mul_left_cancel₀ hoff hc
    have := prim.pow_inj (by omega) hi hpow_eq
    omega
  rw [evaluate_all_lagrange_coefficients_def, if_pos hz,
    lagrange_degenerate_first_match (element d i) d.group_gen i d.size
      d.coset_offset hi hmatch hbefore,
    range_map_indicator i d.size hi]

theorem evaluate_all_lagrange_coefficients_at_domain_element_witness :
    evaluate_vanishing_polynomial d5 (element d5 1) = 0 ∧
    evaluate_all_lagrange_coefficients d5 (element d5 1)
      = (List.range d5.size).map (fun j => if j = 1 then (1 : ZMod 5) else 0) :=
  evaluate_all_lagrange_coefficients_at_domain_element d5
    (by decide) (by decide) (by decide) (by decide) 1 (by decide)

end C1

/-! ### Claim C3: the general path of Lagrange-coefficient evaluation -/

section C3

variable {F : Type*} [Field F] [DecidableEq F]

omit [DecidableEq F] in
lemma lagrange_general_loop_length (tau ginv g : F) :
    ∀ (n : ℕ) (l neg : F), (lagrange_general_loop tau ginv g l neg n).length = n := by
  intro n
  induction n with
  | zero => intro l neg; rfl
  | succ m ih =>
    intro l neg
    rw [lagrange_general_loop, List.length_cons, ih]

lemma lagrange_general_loop_getElem (tau ginv g : F) :
    ∀ (n i : ℕ), i < n → ∀ (l neg : F),
      (lagrange_general_loop tau ginv g l neg n)[i]?
        = some (l * ginv ^ i * (tau + neg * g ^ i)) := by
  intro n
  induction n with
  | zero => intro i hi; omega
  | succ m ih =>
    intro i hi l neg
    cases i with
    | zero =>
      rw [lagrange_general_loop, List.getElem?_cons_zero, pow_zero, pow_zero,
        mul_one, mul_one]
    | succ j =>
      rw [lagrange_general_loop, List.getElem?_cons_succ, ih j (by omega)]
      have h1 : l * ginv * ginv ^ j = l * ginv ^ (j + 1) := by
        rw [pow_succ']; ring
      have h2 : neg * g * g ^ j = neg * g ^ (j + 1) := by
        rw [pow_succ']; ring
      rw [h1, h2]

/-- The general-path entry of `evaluate_all_lagrange_coefficients`: with
`v_i = g ^ i * (size * offset ^ (size - 1))⁻¹`, entry `i` equals
`Z_H(tau) * v_i / (tau - offset * g ^ i)`.  This is the code's computation
after batch inversion, assuming the cached `group_gen_inv` really inverts the
generator. -/
lemma lagrange_entry_general (d : EvalDomain F) (tau : F)
    (hz : evaluate_vanishing_polynomial d tau ≠ 0)
    (hinv : d.group_gen_inv = d.group_gen⁻¹)
    (i : ℕ) (hi : i < d.size) :
    (evaluate_all_lagrange_coefficients d tau).getD i 0
      = evaluate_vanishing_polynomial d tau
        * (d.group_gen ^ i
            * (size_as_field_element d * d.coset_offset ^ (d.size - 1))⁻¹)
        / (tau - d.coset_offset * d.group_gen ^ i) := by
  rw [evaluate_all_lagrange_coefficients_def, if_neg hz, batch_inversion,
    List.getD_eq_getElem?_getD, List.getElem?_map,
    lagrange_general_loop_getElem tau d.group_gen_inv d.group_gen d.size i hi,
    hinv]
  simp only [Option.map_some', Option.getD_some]
  rw [inv_pow, mul_inv, mul_inv, mul_inv, inv_inv, inv_inv, div_eq_mul_inv]
  have hsub : tau + -d.coset_offset * d.group_gen ^ i
      = tau - d.coset_offset * d.group_gen ^ i := by ring
  rw [hsub]
  ring

/-- C3 as stated is false on the code: the spec defines
`v_0 = size * h^(size-1)` but the code uses the inverse,
`v_0 = (size * h^(size-1))⁻¹` (it computes `v_0_inv = m * h^(m-1)`).
Concretely, in the size-2 domain over `ZMod 7` at `tau = 3` the claimed
formula gives `1` for entry 0 while the code returns `2`. -/
theorem lagrange_general_formula_counterexample :
    evaluate_vanishing_polynomial d7 3 ≠ 0 ∧
    (evaluate_all_lagrange_coefficients d7 3).getD 0 0
      ≠ evaluate_vanishing_polynomial d7 3
        * (d7.group_gen ^ 0
            * (size_as_field_element d7 * d7.coset_offset ^ (d7.size - 1)))
        / ((3 : ZMod 7) - d7.coset_offset * d7.group_gen ^ 0) := by
  have hz : evaluate_vanishing_polynomial d7 3 ≠ 0 := by decide
  have hinv : d7.group_gen_inv = d7.group_gen⁻¹ :=
    eq_inv_of_mul_eq_one_left (by decide)
  have h2 : (2 : ZMod 7)⁻¹ = 4 := (eq_inv_of_mul_eq_one_left (by decide)).symm
  have hv : size_as_field_element d7 * d7.coset_offset ^ (d7.size - 1) = 2 := by
    decide
  have hden : (3 : ZMod 7) - d7.coset_offset * d7.group_gen ^ 0 = 2 := by decide
  have hentry := lagrange_entry_general d7 3 hz hinv 0 (by decide)
  refine ⟨hz, ?_⟩
  rw [hentry, hv, hden, h2, div_eq_mul_inv, div_eq_mul_inv, h2]
  decide

/-- C3 (amended): for every `tau` at which the vanishing polynomial is
nonzero, entry `i` of `evaluate_all_lagrange_coefficients(tau)` equals
`Z_H(tau) * v_i / (tau - h * g^i)` where `v_0 = (size * h^(size-1))⁻¹`
(the code's `v_0_inv` is `size * h^(size-1)`) and `v_{i+1} = g * v_i`,
so `v_i = g^i * (size * h^(size-1))⁻¹`. -/
theorem lagrange_general_formula_amended (d : EvalDomain F) (tau : F)
    (hz : evaluate_vanishing_polynomial d tau ≠ 0)
    (hinv : d.group_gen_inv = d.group_gen⁻¹)
    (i : ℕ) (hi : i < d.size) :
    (evaluate_all_lagrange_coefficients d tau).getD i 0
      = evaluate_vanishing_polynomial d tau
        * (d.group_gen ^ i
            * (size_as_field_element d * d.coset_offset ^ (d.size - 1))⁻¹)
        / (tau - d.coset_offset * d.group_gen ^ i) :=
  lagrange_entry_general d tau hz hinv i hi

theorem lagrange_general_formula_amended_witness :
    evaluate_vanishing_polynomial d7 3 ≠ 0 ∧
    d7.group_gen_inv = d7.group_gen⁻¹ ∧
    (evaluate_all_lagrange_coefficients d7 3).getD 0 0
      = evaluate_vanishing_polynomial d7 3
        * (d7.group_gen ^ 0
            * (size_as_field_element d7 * d7.coset_offset ^ (d7.size - 1))⁻¹)
        / ((3 : ZMod 7) - d7.coset_offset * d7.group_gen ^ 0) :=
  ⟨by decide, eq_inv_of_mul_eq_one_left (by decide),
   lagrange_general_formula_amended d7 3 (by decide)
     (eq_inv_of_mul_eq_one_left (by decide)) 0 (by decide)⟩

end C3

/-! ### Claim C2: the interpolation identity

The bridge to Mathlib's Lagrange interpolation: the nodes are
`node d j = offset * g ^ j`, the nodal polynomial factors as
`X ^ size - C (offset ^ size)`, and the code's general-path entry coincides
with the evaluation at `tau` of Mathlib's `Lagrange.basis`. -/

section C2

open Polynomial

variable {F : Type*} [Field F] [DecidableEq F]

/-- The `j`-th interpolation node, `offset * g ^ j`; equal to `element j`. -/
def node (d : EvalDomain F) (j : ℕ) : F := d.coset_offset * d.group_gen ^ j

omit [DecidableEq F] in
lemma node_def (d : EvalDomain F) (j : ℕ) :
    node d j = d.coset_offset * d.group_gen ^ j := rfl

lemma node_eq_element (d : EvalDomain F) (j : ℕ) : node d j = element d j :=
  (element_eq d j).symm

omit [DecidableEq F] in
lemma node_pow_size (d : EvalDomain F) (hg : d.group_gen ^ d.size = 1) (j : ℕ) :
    node d j ^ d.size = d.coset_offset ^ d.size := by
  rw [node, mul_pow, ← pow_mul, mul_comm j d.size, pow_mul, hg, one_pow, mul_one]

omit [DecidableEq F] in
lemma node_injOn (d : EvalDomain F)
    (hg : d.group_gen ^ d.size = 1)
    (hord : ∀ k, k < d.size → 0 < k → d.group_gen ^ k ≠ 1)
    (hoff : d.coset_offset ≠ 0) :
    Set.InjOn (node d) ↑(Finset.range d.size) := by
  intro a ha b hb hab
  rw [Finset.coe_range, Set.mem_Iio] at ha hb
  have prim : IsPrimitiveRoot d.group_gen d.size :=
    isPrimitiveRoot_of_bounds (by omega) hg hord
  exact prim.pow_inj ha hb (mul_left_cancel₀ hoff hab)

omit [DecidableEq F] in
lemma nodal_eq_X_pow_sub_C (d : EvalDomain F)
    (hg : d.group_gen ^ d.size = 1)
    (hord : ∀ k, k < d.size → 0 < k → d.group_gen ^ k ≠ 1)
    (hoff : d.coset_offset ≠ 0) (hn : 0 < d.size) :
    ∏ j ∈ Finset.range d.size, (X - C (node d j))
      = X ^ d.size - C (d.coset_offset ^ d.size) := by
  have hNmonic : (∏ j ∈ Finset.range d.size, (X - C (node d j))).Monic :=
    monic_prod_of_monic _ _ (fun j _ => monic_X_sub_C (node d j))
  have hqmonic : (X ^ d.size - C (d.coset_offset ^ d.size)).Monic :=
    monic_X_pow_sub_C _ (by omega)
  have hNdeg : (∏ j ∈ Finset.range d.size, (X - C (node d j))).natDegree = d.size := by
    rw [natDegree_prod _ _ (fun j _ => X_sub_C_ne_zero (node d j))]
    simp [natDegree_X_sub_C]
  have hdegN : (∏ j ∈ Finset.range d.size, (X - C (node d j))).degree
      = (d.size : WithBot ℕ) := by
    rw [degree_eq_natDegree hNmonic.ne_zero, hNdeg]
  have hdegq : (X ^ d.size - C (d.coset_offset ^ d.size)).degree
      = (d.size : WithBot ℕ) :=
    degree_X_pow_sub_C (by omega) _
  apply eq_of_degree_sub_lt_of_eval_index_eq (Finset.range d.size)
    (node_injOn d hg hord hoff)
  · have hdiff := degree_sub_lt (hdegN.trans hdegq.symm) hNmonic.ne_zero
      (hNmonic.leadingCoeff.trans hqmonic.leadingCoeff.symm)
    rw [Finset.card_range]
    rw [hdegN] at hdiff
    exact hdiff
  · intro j hj
    have hleft : (∏ j ∈ Finset.range d.size, (X - C (node d j))).eval (node d j) = 0 := by
      rw [eval_prod]
      apply Finset.prod_eq_zero hj
      simp
    rw [hleft]
    simp [node_pow_size d hg j]

omit [DecidableEq F] in
lemma erase_nodal_eq_geom (d : EvalDomain F)
    (hg : d.group_gen ^ d.size = 1)
    (hord : ∀ k, k < d.size → 0 < k → d.group_gen ^ k ≠ 1)
    (hoff : d.coset_offset ≠ 0) (hn : 0 < d.size)
    (i : ℕ) (hi : i < d.size) :
    ∏ j ∈ (Finset.range d.size).erase i, (X - C (node d j))
      = ∑ k ∈ Finset.range d.size, X ^ k * C (node d i) ^ (d.size - 1 - k) := by
  have hiR : i ∈ Finset.range d.size := Finset.mem_range.mpr hi
  have hfact := Finset.mul_prod_erase (Finset.range d.size)
    (fun j => X - C (node d j)) hiR
  have hgeom := geom_sum₂_mul (X : Polynomial F) (C (node d i)) d.size
  have hCpow : C (node d i) ^ d.size = C (d.coset_offset ^ d.size) := by
    rw [← C_pow, node_pow_size d hg i]
  apply mul_right_cancel₀ (X_sub_C_ne_zero (node d i))
  rw [hgeom, hCpow, ← nodal_eq_X_pow_sub_C d hg hord hoff hn, ← hfact]
  ring

omit [DecidableEq F] in
lemma erase_prod_at_node (d : EvalDomain F)
    (hg : d.group_gen ^ d.size = 1)
    (hord : ∀ k, k < d.size → 0 < k → d.group_gen ^ k ≠ 1)
    (hoff : d.coset_offset ≠ 0) (hn : 0 < d.size)
    (i : ℕ) (hi : i < d.size) :
    ∏ j ∈ (Finset.range d.size).erase i, (node d i - node d j)
      = size_as_field_element d * node d i ^ (d.size - 1) := by
  have hC := congrArg (eval (node d i))
    (erase_nodal_eq_geom d hg hord hoff hn i hi)
  simp only [eval_prod, eval_finset_sum, eval_mul, eval_pow, eval_sub, eval_X,
    eval_C] at hC
  rw [hC]
  have hterm : ∀ k ∈ Finset.range d.size,
      node d i ^ k * node d i ^ (d.size - 1 - k) = node d i ^ (d.size - 1) := by
    intro k hk
    rw [← pow_add]
    congr 1
    have := Finset.mem_range.mp hk
    omega
  rw [Finset.sum_congr rfl hterm, Finset.sum_const, Finset.card_range,
    nsmul_eq_mul, size_as_field_element]

/-- C2: interpolation identity.  For a domain whose generator has
multiplicative order `size`, nonzero offset `h` and correct cached accessors,
every point `tau` outside the domain, and every polynomial `P` of degree
`< size`, the vector `L` returned by
`evaluate_all_lagrange_coefficients(tau)` satisfies
`Σ_i L_i * P(element(i)) = P(tau)`. -/
theorem lagrange_interpolation_identity (d : EvalDomain F)
    (hg : d.group_gen ^ d.size = 1)
    (hord : ∀ k, k < d.size → 0 < k → d.group_gen ^ k ≠ 1)
    (hoff : d.coset_offset ≠ 0)
    (hpow : d.coset_offset_pow_size = d.coset_offset ^ d.size)
    (hinv : d.group_gen_inv = d.group_gen⁻¹)
    (hn : 0 < d.size)
    (tau : F) (htau : ∀ i, i < d.size → tau ≠ element d i)
    (P : Polynomial F) (hP : P.degree < (d.size : WithBot ℕ)) :
    ∑ i ∈ Finset.range d.size,
      (evaluate_all_lagrange_coefficients d tau).getD i 0 * P.eval (element d i)
      = P.eval tau := by
  have hvs : Set.InjOn (node d) ↑(Finset.range d.size) :=
    node_injOn d hg hord hoff
  have hzprod : evaluate_vanishing_polynomial d tau
      = ∏ j ∈ Finset.range d.size, (tau - node d j) := by
    have h1 : evaluate_vanishing_polynomial d tau
        = eval tau (X ^ d.size - C (d.coset_offset ^ d.size)) := by
      rw [evaluate_vanishing_polynomial, hpow]
      simp
    rw [h1, ← nodal_eq_X_pow_sub_C d hg hord hoff hn, eval_prod]
    apply Finset.prod_congr rfl
    intro j _
    simp
  have hfac : ∀ j, j < d.size → tau - node d j ≠ 0 := by
    intro j hj
    rw [sub_ne_zero, node_eq_element]
    exact htau j hj
  have hz : evaluate_vanishing_polynomial d tau ≠ 0 := by
    rw [hzprod, Finset.prod_ne_zero_iff]
    intro j hj
    exact hfac j (Finset.mem_range.mp hj)
  have hentry : ∀ i ∈ Finset.range d.size,
      (evaluate_all_lagrange_coefficients d tau).getD i 0
        = eval tau (Lagrange.basis (Finset.range d.size) (node d) i) := by
    intro i hiR
    have hi := Finset.mem_range.mp hiR
    have hne := hfac i hi
    have hsplit : (tau - node d i)
        * ∏ j ∈ (Finset.range d.size).erase i, (tau - node d j)
        = evaluate_vanishing_polynomial d tau := by
      rw [hzprod]
      exact Finset.mul_prod_erase (Finset.range d.size)
        (fun j => tau - node d j) hiR
    have hnum : ∏ j ∈ (Finset.range d.size).erase i, (tau - node d j)
        = evaluate_vanishing_polynomial d tau * (tau - node d i)⁻¹ := by
      rw [← hsplit, mul_comm (tau - node d i), mul_assoc,
        mul_inv_cancel₀ hne, mul_one]
    have hgi1 : (d.group_gen ^ i) ^ d.size = 1 := by
      rw [← pow_mul, mul_comm i d.size, pow_mul, hg, one_pow]
    have hgi : (d.group_gen ^ i) ^ (d.size - 1) = (d.group_gen ^ i)⁻¹ := by
      apply eq_inv_of_mul_eq_one_left
      rw [← pow_succ]
      have harith : d.size - 1 + 1 = d.size := by omega
      rw [harith, hgi1]
    have hden : (∏ j ∈ (Finset.range d.size).erase i, (node d i - node d j))⁻¹
        = (size_as_field_element d * d.coset_offset ^ (d.size - 1))⁻¹
          * d.group_gen ^ i := by
      rw [erase_prod_at_node d hg hord hoff hn i hi, node_def, mul_pow, hgi]
      simp only [mul_inv, inv_inv]
      ring
    rw [lagrange_entry_general d tau hz hinv i hi, Lagrange.basis, eval_prod]
    have hBD : ∀ j ∈ (Finset.range d.size).erase i,
        eval tau (Lagrange.basisDivisor (node d i) (node d j))
          = (node d i - node d j)⁻¹ * (tau - node d j) := by
      intro j _
      rw [Lagrange.basisDivisor]
      simp
    rw [Finset.prod_congr rfl hBD, Finset.prod_mul_distrib,
      Finset.prod_inv_distrib, hnum, hden, node_def, div_eq_mul_inv]
    ring
  have hPdeg : P.degree < ((Finset.range d.size).card : WithBot ℕ) := by
    rw [Finset.card_range]
    exact hP
  have hinterp := Lagrange.eq_interpolate hvs hPdeg
  have hsum : ∑ i ∈ Finset.range d.size,
      (evaluate_all_lagrange_coefficients d tau).getD i 0 * P.eval (element d i)
      = eval tau (Lagrange.interpolate (Finset.range d.size) (node d)
          (fun j => P.eval (node d j))) := by
    rw [Lagrange.interpolate_apply, eval_finset_sum]
    apply Finset.sum_congr rfl
    intro i hiR
    rw [hentry i hiR, ← node_eq_element, eval_mul, eval_C]
    ring
  rw [hsum, ← hinterp]

theorem lagrange_interpolation_identity_witness :
    ∑ i ∈ Finset.range d5.size,
      (evaluate_all_lagrange_coefficients d5 0).getD i 0
        * (Polynomial.X : Polynomial (ZMod 5)).eval (element d5 i)
      = (Polynomial.X : Polynomial (ZMod 5)).eval 0 :=
  lagrange_interpolation_identity d5 (by decide) (by decide) (by decide)
    (by decide) (eq_inv_of_mul_eq_one_left (by decide)) (by decide) 0
    (by decide) Polynomial.X (by rw [Polynomial.degree_X]; decide)

end C2

end Ark
